import Mathlib

/-!
Verification development for a minimal software rasterizer (Rust, src/src/lib.rs).

The source manipulates `f64`; here every `f64` is embedded as `ℚ` (exact
arithmetic on the dyadic inputs all concrete scenarios use).  The two Rust
float-to-integer casts that the code performs are modelled with their actual
(saturating, truncate-toward-zero) semantics:
  * `value as usize`  -> `castUsize`
  * `value as u8`     -> `rgbByte` (after the multiplication by 256)
Rust slice indexing `a[i..j]` panics when `j > a.len()` or `j < i`; a panic is
modelled by returning `none`, so `Scene.render` produces an `Option` buffer.
The pixel buffer, a fixed square array of side N (N = 600 in the source, the
side length appears only as the array length), is modelled as a function
`ℕ → ℕ → Vec3` together with the side length `n`.
-/

/-- Mirrors `Vec3` (lib.rs lines 9-17): three `f64` components. -/
structure Vec3 where
  x : ℚ
  y : ℚ
  z : ℚ
deriving DecidableEq

namespace Vec3

/-- Red accessor, maps to X (lib.rs line 50). -/
def r (v : Vec3) : ℚ := v.x

/-- Green accessor, maps to Y (lib.rs line 59). -/
def g (v : Vec3) : ℚ := v.y

/-- Blue accessor, maps to Z (lib.rs line 68). -/
def b (v : Vec3) : ℚ := v.z

end Vec3

/-- Mirrors `Vec2` (lib.rs lines 78-84): two `f64` components. -/
@[ext] structure Vec2 where
  x : ℚ
  y : ℚ
deriving DecidableEq

/-- `impl Sub for Vec2` (lib.rs lines 86-94): component-wise subtraction. -/
instance : Sub Vec2 := ⟨fun a b => ⟨a.x - b.x, a.y - b.y⟩⟩

/-- `impl Mul for Vec2` (lib.rs lines 96-104): component-wise product. -/
instance : Mul Vec2 := ⟨fun a b => ⟨a.x * b.x, a.y * b.y⟩⟩

/-- `impl Mul<f64> for Vec2` (lib.rs lines 106-114): scaling by a scalar. -/
instance : HMul Vec2 ℚ Vec2 := ⟨fun v k => ⟨v.x * k, v.y * k⟩⟩

@[simp] theorem Vec2.sub_x (a b : Vec2) : (a - b).x = a.x - b.x := rfl

@[simp] theorem Vec2.sub_y (a b : Vec2) : (a - b).y = a.y - b.y := rfl

@[simp] theorem Vec2.smul_x (v : Vec2) (k : ℚ) : (v * k).x = v.x * k := rfl

@[simp] theorem Vec2.smul_y (v : Vec2) (k : ℚ) : (v * k).y = v.y * k := rfl

namespace Vec2

/-- `Vec2::dot` (lib.rs lines 118-120). -/
def dot (a other : Vec2) : ℚ := a.x * other.x + a.y * other.y

/-- `Vec2::clockwise90` (lib.rs lines 122-127): `(y, -x)`. -/
def clockwise90 (v : Vec2) : Vec2 := ⟨v.y, -v.x⟩

/-- The scalar computed inside `Vec2::point_on_right_line` (lib.rs lines
130-134): `ap.dot(ab_perp)` with `ap = p - a`, `ab_perp = (b - a).clockwise90()`. -/
def edgeDot (a b p : Vec2) : ℚ := ((p - a).dot ((b - a).clockwise90))

/-- `Vec2::point_on_right_line` (lib.rs lines 130-135): the dot product against
the rotated edge is `>= 0.0`. -/
def point_on_right_line (a b p : Vec2) : Bool := decide (0 ≤ edgeDot a b p)

theorem edgeDot_eq (a b p : Vec2) :
    edgeDot a b p = (p.x - a.x) * (b.y - a.y) - (p.y - a.y) * (b.x - a.x) := by
  simp [edgeDot, dot, clockwise90]
  ring

end Vec2

/-- Mirrors `Tri2` (lib.rs lines 170-175): three points and a color. -/
structure Tri2 where
  points : Fin 3 → Vec2
  color : Vec3

/-- `impl Mul<f64> for Tri2` (lib.rs lines 177-189): every vertex is scaled,
the color is kept. -/
instance : HMul Tri2 ℚ Tri2 := ⟨fun t k => ⟨fun i => t.points i * k, t.color⟩⟩

@[simp] theorem Tri2.smul_points (t : Tri2) (k : ℚ) (i : Fin 3) :
    (t * k).points i = t.points i * k := rfl

@[simp] theorem Tri2.smul_color (t : Tri2) (k : ℚ) : (t * k).color = t.color := rfl

namespace Tri2

/-- `Tri2::inside` (lib.rs lines 192-199): the three edge tests must agree. -/
def inside (t : Tri2) (point : Vec2) : Bool :=
  let side_ab := (t.points 0).point_on_right_line (t.points 1) point
  let side_bc := (t.points 1).point_on_right_line (t.points 2) point
  let side_ca := (t.points 2).point_on_right_line (t.points 0) point
  (side_ab == side_bc) && (side_bc == side_ca)

/-- `Tri2::bounding_box` (lib.rs lines 200-212): `reduce(f64::min)` and
`reduce(f64::max)` fold left over the three vertices, component-wise. -/
def bounding_box (t : Tri2) : Vec2 × Vec2 :=
  (⟨min (min (t.points 0).x (t.points 1).x) (t.points 2).x,
     min (min (t.points 0).y (t.points 1).y) (t.points 2).y⟩,
   ⟨max (max (t.points 0).x (t.points 1).x) (t.points 2).x,
     max (max (t.points 0).y (t.points 1).y) (t.points 2).y⟩)

end Tri2

/-- Rust `f64 as usize` (used at lib.rs lines 284 and 288): truncate toward
zero, saturating below at 0.  For every rational this equals `⌊q⌋.toNat`. -/
def castUsize (q : ℚ) : ℕ := (⌊q⌋).toNat

/-- Rust `(channel * 256.0) as u8` (lib.rs lines 161-163 and 313-315):
truncate toward zero, saturating into `[0, 255]`. -/
def rgbByte (c : ℚ) : ℕ := min 255 (⌊c * 256⌋).toNat

/-- The all-black initial buffer (lib.rs lines 240-244, `DEFAULT_OUTPUT`). -/
def blackBuf : ℕ → ℕ → Vec3 := fun _ _ => ⟨0, 0, 0⟩

namespace Scene

/-- One iteration of the triangle loop of `Scene::render` (lib.rs lines
280-300).  The outer slice `output[top_left.x as usize..bottom_right.x as
usize]` panics (`none`) when its end exceeds the side length or its start
exceeds its end; the inner slice `row[top_left.y as usize..bottom_right.y as
usize]` is evaluated once per iterated row, so it can only panic when the
outer slice is non-empty.  Both loop counters `y` (outer) and `x` (inner)
come from `enumerate()`, so they restart at 0 at the slice start: the point
handed to `Tri2::inside` is `(x, y)` built from those relative offsets. -/
def paintTriangle (n : ℕ) (buf : ℕ → ℕ → Vec3) (t : Tri2) : Option (ℕ → ℕ → Vec3) :=
  let x0 := castUsize t.bounding_box.1.x
  let x1 := castUsize t.bounding_box.2.x
  let y0 := castUsize t.bounding_box.1.y
  let y1 := castUsize t.bounding_box.2.y
  if n < x1 ∨ x1 < x0 then none
  else if x0 < x1 ∧ (n < y1 ∨ y1 < y0) then none
  else some (fun i j =>
    if x0 ≤ i ∧ i < x1 ∧ y0 ≤ j ∧ j < y1 ∧
        t.inside ⟨((j - y0 : ℕ) : ℚ), ((i - x0 : ℕ) : ℚ)⟩ = true
    then t.color else buf i j)

/-- `Scene::render` (lib.rs lines 276-301): paint the triangles in list
order; a panic anywhere aborts the whole call. -/
def render (n : ℕ) (triangles : List Tri2) (buf : ℕ → ℕ → Vec3) :
    Option (ℕ → ℕ → Vec3) :=
  triangles.foldl (fun ob t => ob.bind (fun b => paintTriangle n b t)) (some buf)

/-- The three bytes produced for one buffer cell by `Scene::display_tex_sdl3`
(lib.rs lines 311-317). -/
def exportPixel (buf : ℕ → ℕ → Vec3) (i j : ℕ) : ℕ × ℕ × ℕ :=
  (rgbByte (buf i j).r, rgbByte (buf i j).g, rgbByte (buf i j).b)

end Scene

/-- The row-major row list of the buffer, mirroring iteration over
`self.output` (outer index first). -/
def bufferRows (n : ℕ) (buf : ℕ → ℕ → Vec3) : List (List Vec3) :=
  (List.range n).map (fun i => (List.range n).map (fun j => buf i j))

/-- The byte stream built by `Scene::display_tex_sdl3` (lib.rs lines 303-322):
`output.iter().flatten().flat_map(|val| [r, g, b bytes])`. -/
def exportBytes (n : ℕ) (buf : ℕ → ℕ → Vec3) : List ℕ :=
  (bufferRows n buf).flatten.flatMap
    (fun val => [rgbByte val.r, rgbByte val.g, rgbByte val.b])

/-- The spec (sections 4.2 and 7) describes the byte conversion as a
truncation that can wrap for out-of-range channels.  Modelled from the spec:
wrapping integer narrowing, keeping the low 8 bits of the truncated value. -/
def specWrapByte (c : ℚ) : ℕ := ((⌊c * 256⌋) % 256).toNat

@[simp] theorem vec3App0 {α : Type} (a b c : α) : (![a, b, c]) 0 = a := rfl

@[simp] theorem vec3App1 {α : Type} (a b c : α) : (![a, b, c]) 1 = b := rfl

@[simp] theorem vec3App2 {α : Type} (a b c : α) : (![a, b, c]) 2 = c := rfl

/-- The boolean inside test, phrased as agreement of the three sign tests. -/
theorem Tri2.inside_eq_true_iff (t : Tri2) (p : Vec2) :
    t.inside p = true ↔
      ((0 ≤ Vec2.edgeDot (t.points 0) (t.points 1) p ↔
          0 ≤ Vec2.edgeDot (t.points 1) (t.points 2) p) ∧
        (0 ≤ Vec2.edgeDot (t.points 1) (t.points 2) p ↔
          0 ≤ Vec2.edgeDot (t.points 2) (t.points 0) p)) := by
  simp [Tri2.inside, Vec2.point_on_right_line, decide_eq_decide]

/-- Agreement of the three sign tests means all non-negative or all negative. -/
theorem Tri2.inside_eq_true_iff_signs (t : Tri2) (p : Vec2) :
    t.inside p = true ↔
      ((0 ≤ Vec2.edgeDot (t.points 0) (t.points 1) p ∧
          0 ≤ Vec2.edgeDot (t.points 1) (t.points 2) p ∧
          0 ≤ Vec2.edgeDot (t.points 2) (t.points 0) p) ∨
        (Vec2.edgeDot (t.points 0) (t.points 1) p < 0 ∧
          Vec2.edgeDot (t.points 1) (t.points 2) p < 0 ∧
          Vec2.edgeDot (t.points 2) (t.points 0) p < 0)) := by
  rw [Tri2.inside_eq_true_iff]
  simp only [← not_lt]
  tauto

/-- The triangle (0,0),(4,0),(0,4) from the boundary-inclusivity scenario. -/
def specEdgeTri : Tri2 := ⟨![⟨0, 0⟩, ⟨4, 0⟩, ⟨0, 4⟩], ⟨0, 0, 0⟩⟩

/-- The same triangle with its vertex order reversed. -/
def specEdgeTriRev : Tri2 := ⟨![⟨0, 0⟩, ⟨0, 4⟩, ⟨4, 0⟩], ⟨0, 0, 0⟩⟩

/-- C4 (counterexample): the point (2,0) lies exactly on the edge from (0,0)
to (4,0) of the spec scenario triangle, yet the inside test classifies it as
outside: the AB test yields dot 0 (true) while the BC and CA tests are false,
so the three tests do not agree. -/
theorem c4_counterexample : specEdgeTri.inside ⟨2, 0⟩ = false := by
  rw [← Bool.not_eq_true, Tri2.inside_eq_true_iff]
  simp only [specEdgeTri, vec3App0, vec3App1, vec3App2]
  norm_num [Vec2.edgeDot_eq]

/-- C4 (amended): whether an edge point counts as inside depends on the
winding: with the reversed winding (0,0),(0,4),(4,0) the two other edge
tests are true, the on-edge test is inclusively true, and (2,0) is inside;
with the spec winding (0,0),(4,0),(0,4) the same point is outside. -/
theorem c4_amended :
    specEdgeTriRev.inside ⟨2, 0⟩ = true ∧ specEdgeTri.inside ⟨2, 0⟩ = false := by
  constructor
  · rw [Tri2.inside_eq_true_iff]
    simp only [specEdgeTriRev, vec3App0, vec3App1, vec3App2]
    norm_num [Vec2.edgeDot_eq]
  · rw [← Bool.not_eq_true, Tri2.inside_eq_true_iff]
    simp only [specEdgeTri, vec3App0, vec3App1, vec3App2]
    norm_num [Vec2.edgeDot_eq]

/-- C5 (counterexample): at channel value 2.0 (outside [0,1)) the cast used by
the code saturates to 255; the wrapping narrowing claimed by the spec would
give 512 mod 256 = 0, so the byte does not wrap. -/
theorem c5_counterexample :
    rgbByte 2 = 255 ∧ specWrapByte 2 = 0 ∧ (255 : ℕ) ≠ 0 := by
  refine ⟨?_, ?_, by norm_num⟩
  · unfold rgbByte
    norm_num
  · unfold specWrapByte
    norm_num

/-- C5 (amended): the Rust float-to-u8 cast saturates rather than wraps:
every channel value at or above 1.0 produces the byte 255 and every negative
channel value produces the byte 0. -/
theorem c5_amended (c : ℚ) :
    (1 ≤ c → rgbByte c = 255) ∧ (c < 0 → rgbByte c = 0) := by
  constructor
  · intro h
    have h1 : (255 : ℤ) ≤ ⌊c * 256⌋ := Int.le_floor.mpr (by push_cast; nlinarith)
    unfold rgbByte
    omega
  · intro h
    have h1 : ⌊c * 256⌋ < 0 := by
      rw [Int.floor_lt]
      push_cast
      nlinarith
    unfold rgbByte
    omega

/-- C5 witness: the amended theorem applied at the concrete channel 2.0. -/
theorem c5_amended_witness : (1 : ℚ) ≤ 2 ∧ rgbByte 2 = 255 :=
  ⟨by norm_num, (c5_amended 2).1 (by norm_num)⟩

/-- C10: for a triangle whose three vertices are the same point, every edge
vector is zero, every dot product is 0 and counts as on-or-right, so the
three tests agree and every query point is classified inside. -/
theorem c10_degenerate_all_inside (a : Vec2) (c : Vec3) (p : Vec2) :
    Tri2.inside ⟨![a, a, a], c⟩ p = true := by
  rw [Tri2.inside_eq_true_iff]
  norm_num [Vec2.edgeDot_eq]

/-- C9: scaling triangle and point by the same k > 0 multiplies every edge
dot product by k * k > 0, preserving all three sign tests, hence containment. -/
theorem c9_scale_invariant (t : Tri2) (p : Vec2) (k : ℚ) (hk : 0 < k) :
    (t * k).inside (p * k) = t.inside p := by
  have key : ∀ a b : Vec2,
      Vec2.edgeDot (a * k) (b * k) (p * k) = k * k * Vec2.edgeDot a b p := by
    intro a b
    simp only [Vec2.edgeDot_eq, Vec2.smul_x, Vec2.smul_y]
    ring
  have hiff : ∀ d : ℚ, (0 ≤ k * k * d) ↔ 0 ≤ d := by
    intro d
    constructor
    · intro h
      nlinarith [mul_pos hk hk]
    · intro h
      nlinarith [mul_pos hk hk]
  have e : ∀ a b : Vec2,
      Vec2.point_on_right_line (a * k) (b * k) (p * k) =
        Vec2.point_on_right_line a b p := by
    intro a b
    unfold Vec2.point_on_right_line
    rw [key]
    exact decide_eq_decide.mpr (hiff _)
  simp only [Tri2.inside, Tri2.smul_points, e]

/-- C9 witness: invariance at the concrete triangle (0,0),(4,0),(0,4), point
(1,1) and factor 2. -/
theorem c9_scale_invariant_witness :
    (0 : ℚ) < 2 ∧
      (specEdgeTri * (2 : ℚ)).inside ((⟨1, 1⟩ : Vec2) * (2 : ℚ)) =
        specEdgeTri.inside ⟨1, 1⟩ :=
  ⟨by norm_num, c9_scale_invariant specEdgeTri ⟨1, 1⟩ 2 (by norm_num)⟩

namespace Tri2

/-- Twice the signed area of the triangle (cross product of two edges). -/
def signedArea2 (t : Tri2) : ℚ :=
  ((t.points 1).x - (t.points 0).x) * ((t.points 2).y - (t.points 0).y) -
    ((t.points 1).y - (t.points 0).y) * ((t.points 2).x - (t.points 0).x)

/-- Non-degeneracy in the sense of the spec: the three vertices span a
triangle of nonzero area. -/
def nondegenerate (t : Tri2) : Prop := t.signedArea2 ≠ 0

/-- The spec notion of a point strictly inside the triangle: a convex
combination of the three vertices with all weights positive. -/
def strictlyInside (t : Tri2) (p : Vec2) : Prop :=
  ∃ a b c : ℚ, 0 < a ∧ 0 < b ∧ 0 < c ∧ a + b + c = 1 ∧
    p.x = a * (t.points 0).x + b * (t.points 1).x + c * (t.points 2).x ∧
    p.y = a * (t.points 0).y + b * (t.points 1).y + c * (t.points 2).y

/-- Membership in the closed triangle: a convex combination of the vertices
with nonnegative weights. -/
def inClosed (t : Tri2) (p : Vec2) : Prop :=
  ∃ a b c : ℚ, 0 ≤ a ∧ 0 ≤ b ∧ 0 ≤ c ∧ a + b + c = 1 ∧
    p.x = a * (t.points 0).x + b * (t.points 1).x + c * (t.points 2).x ∧
    p.y = a * (t.points 0).y + b * (t.points 1).y + c * (t.points 2).y

/-- The spec notion of a point strictly outside the triangle: not in the
closed triangle. -/
def strictlyOutside (t : Tri2) (p : Vec2) : Prop := ¬ t.inClosed p

/-- The three edge dot products sum to minus twice the signed area. -/
theorem edgeDot_sum (t : Tri2) (p : Vec2) :
    Vec2.edgeDot (t.points 0) (t.points 1) p +
        Vec2.edgeDot (t.points 1) (t.points 2) p +
        Vec2.edgeDot (t.points 2) (t.points 0) p = -t.signedArea2 := by
  simp only [Vec2.edgeDot_eq, signedArea2]
  ring

/-- Barycentric reconstruction of the x coordinate from the edge dots. -/
theorem edgeDot_recon_x (t : Tri2) (p : Vec2) :
    Vec2.edgeDot (t.points 1) (t.points 2) p * (t.points 0).x +
        Vec2.edgeDot (t.points 2) (t.points 0) p * (t.points 1).x +
        Vec2.edgeDot (t.points 0) (t.points 1) p * (t.points 2).x =
      -t.signedArea2 * p.x := by
  simp only [Vec2.edgeDot_eq, signedArea2]
  ring

/-- Barycentric reconstruction of the y coordinate from the edge dots. -/
theorem edgeDot_recon_y (t : Tri2) (p : Vec2) :
    Vec2.edgeDot (t.points 1) (t.points 2) p * (t.points 0).y +
        Vec2.edgeDot (t.points 2) (t.points 0) p * (t.points 1).y +
        Vec2.edgeDot (t.points 0) (t.points 1) p * (t.points 2).y =
      -t.signedArea2 * p.y := by
  simp only [Vec2.edgeDot_eq, signedArea2]
  ring

/-- Dividing a three-term sum by its total yields barycentric weights. -/
theorem bary_div_sum (E u v w : ℚ) (hE : E ≠ 0) (h : u + v + w = E) :
    u / E + v / E + w / E = 1 := by
  field_simp
  linarith

/-- Dividing a weighted reconstruction identity by the total area recovers
the coordinate as a convex combination. -/
theorem bary_div_combo (E u v w q A B C : ℚ) (hE : E ≠ 0)
    (h : u * A + v * B + w * C = E * q) :
    q = u / E * A + v / E * B + w / E * C := by
  field_simp
  linear_combination -h

/-- A point the inside test accepts lies in the closed triangle (for a
non-degenerate triangle). -/
theorem inClosed_of_inside (t : Tri2) (p : Vec2) (hnd : t.nondegenerate)
    (h : t.inside p = true) : t.inClosed p := by
  have hsum := t.edgeDot_sum p
  have hx := t.edgeDot_recon_x p
  have hy := t.edgeDot_recon_y p
  rw [Tri2.inside_eq_true_iff_signs] at h
  rcases h with ⟨h1, h2, h3⟩ | ⟨h1, h2, h3⟩
  · have hS : t.signedArea2 < 0 := lt_of_le_of_ne (by linarith) hnd
    have hE : -t.signedArea2 ≠ 0 := by linarith
    exact ⟨Vec2.edgeDot (t.points 1) (t.points 2) p / -t.signedArea2,
      Vec2.edgeDot (t.points 2) (t.points 0) p / -t.signedArea2,
      Vec2.edgeDot (t.points 0) (t.points 1) p / -t.signedArea2,
      div_nonneg h2 (by linarith), div_nonneg h3 (by linarith),
      div_nonneg h1 (by linarith),
      bary_div_sum _ _ _ _ hE (by linarith),
      bary_div_combo _ _ _ _ _ _ _ _ hE hx,
      bary_div_combo _ _ _ _ _ _ _ _ hE hy⟩
  · have hS : 0 < t.signedArea2 := lt_of_le_of_ne (by linarith) (Ne.symm hnd)
    have hE : -t.signedArea2 ≠ 0 := by linarith
    exact ⟨Vec2.edgeDot (t.points 1) (t.points 2) p / -t.signedArea2,
      Vec2.edgeDot (t.points 2) (t.points 0) p / -t.signedArea2,
      Vec2.edgeDot (t.points 0) (t.points 1) p / -t.signedArea2,
      div_nonneg_iff.mpr (Or.inr ⟨le_of_lt h2, by linarith⟩),
      div_nonneg_iff.mpr (Or.inr ⟨le_of_lt h3, by linarith⟩),
      div_nonneg_iff.mpr (Or.inr ⟨le_of_lt h1, by linarith⟩),
      bary_div_sum _ _ _ _ hE (by linarith),
      bary_div_combo _ _ _ _ _ _ _ _ hE hx,
      bary_div_combo _ _ _ _ _ _ _ _ hE hy⟩

/-- A point strictly inside the triangle passes the inside test, whatever the
winding: all three edge dots share the sign opposite to the signed area. -/
theorem inside_of_strictlyInside (t : Tri2) (p : Vec2)
    (h : t.strictlyInside p) : t.inside p = true := by
  obtain ⟨a, b, c, ha, hb, hc, habc, hx, hy⟩ := h
  have ha' : a = 1 - b - c := by linarith
  have e1 : Vec2.edgeDot (t.points 0) (t.points 1) p = -(c * t.signedArea2) := by
    rw [Vec2.edgeDot_eq, hx, hy, ha']
    simp only [signedArea2]
    ring
  have e2 : Vec2.edgeDot (t.points 1) (t.points 2) p = -(a * t.signedArea2) := by
    rw [Vec2.edgeDot_eq, hx, hy, ha']
    simp only [signedArea2]
    ring
  have e3 : Vec2.edgeDot (t.points 2) (t.points 0) p = -(b * t.signedArea2) := by
    rw [Vec2.edgeDot_eq, hx, hy, ha']
    simp only [signedArea2]
    ring
  rw [Tri2.inside_eq_true_iff_signs, e1, e2, e3]
  rcases lt_trichotomy t.signedArea2 0 with hS | hS | hS
  · exact Or.inl ⟨by nlinarith, by nlinarith, by nlinarith⟩
  · exact Or.inl ⟨by nlinarith, by nlinarith, by nlinarith⟩
  · exact Or.inr ⟨by nlinarith, by nlinarith, by nlinarith⟩

end Tri2

/-- C6: for every non-degenerate triangle, in either winding order, every
point strictly inside passes the inside test and every point strictly
outside fails it. -/
theorem c6_inside_strict (t : Tri2) (p : Vec2) (hnd : t.nondegenerate) :
    (t.strictlyInside p → t.inside p = true) ∧
      (t.strictlyOutside p → t.inside p = false) := by
  constructor
  · exact t.inside_of_strictlyInside p
  · intro hout
    cases hb : t.inside p with
    | false => rfl
    | true => exact absurd (t.inClosed_of_inside p hnd hb) hout

/-- C6 witness: the theorem applied to the non-degenerate triangle
(0,0),(4,0),(0,4) and the strictly interior point (1,1). -/
theorem c6_inside_strict_witness :
    specEdgeTri.nondegenerate ∧ specEdgeTri.inside ⟨1, 1⟩ = true := by
  have hnd : specEdgeTri.nondegenerate := by
    unfold Tri2.nondegenerate Tri2.signedArea2
    simp only [specEdgeTri, vec3App0, vec3App1, vec3App2]
    norm_num
  refine ⟨hnd, (c6_inside_strict specEdgeTri ⟨1, 1⟩ hnd).1 ?_⟩
  refine ⟨1/2, 1/4, 1/4, by norm_num, by norm_num, by norm_num, by norm_num, ?_, ?_⟩
  · simp only [specEdgeTri, vec3App0, vec3App1, vec3App2]
    norm_num
  · simp only [specEdgeTri, vec3App0, vec3App1, vec3App2]
    norm_num

/-- Every element of `Fin 3` is 0, 1 or 2. -/
theorem fin3_trichotomy : ∀ i : Fin 3, i = 0 ∨ i = 1 ∨ i = 2 := by decide

/-- A left fold of `min` over three values is invariant under permuting the
value function. -/
theorem min3_perm (g : Fin 3 → ℚ) (σ : Equiv.Perm (Fin 3)) :
    min (min (g (σ 0)) (g (σ 1))) (g (σ 2)) = min (min (g 0) (g 1)) (g 2) := by
  rcases fin3_trichotomy (σ 0) with h0 | h0 | h0 <;>
    rcases fin3_trichotomy (σ 1) with h1 | h1 | h1 <;>
      rcases fin3_trichotomy (σ 2) with h2 | h2 | h2 <;>
        first
          | exact absurd (σ.injective (h0.trans h1.symm)) (by decide)
          | exact absurd (σ.injective (h0.trans h2.symm)) (by decide)
          | exact absurd (σ.injective (h1.trans h2.symm)) (by decide)
          | ((rw [h0, h1, h2]) <;> (simp only [min_def]; split_ifs <;> linarith))

/-- A left fold of `max` over three values is invariant under permuting the
value function. -/
theorem max3_perm (g : Fin 3 → ℚ) (σ : Equiv.Perm (Fin 3)) :
    max (max (g (σ 0)) (g (σ 1))) (g (σ 2)) = max (max (g 0) (g 1)) (g 2) := by
  rcases fin3_trichotomy (σ 0) with h0 | h0 | h0 <;>
    rcases fin3_trichotomy (σ 1) with h1 | h1 | h1 <;>
      rcases fin3_trichotomy (σ 2) with h2 | h2 | h2 <;>
        first
          | exact absurd (σ.injective (h0.trans h1.symm)) (by decide)
          | exact absurd (σ.injective (h0.trans h2.symm)) (by decide)
          | exact absurd (σ.injective (h1.trans h2.symm)) (by decide)
          | ((rw [h0, h1, h2]) <;> (simp only [max_def]; split_ifs <;> linarith))

/-- C7: the bounding box is the component-wise minimum (top-left) and maximum
(bottom-right) of the three vertices, and reordering the vertex array by any
permutation leaves it unchanged. -/
theorem c7_bounding_box (t : Tri2) :
    t.bounding_box =
      (⟨min (min (t.points 0).x (t.points 1).x) (t.points 2).x,
         min (min (t.points 0).y (t.points 1).y) (t.points 2).y⟩,
       ⟨max (max (t.points 0).x (t.points 1).x) (t.points 2).x,
         max (max (t.points 0).y (t.points 1).y) (t.points 2).y⟩) ∧
      ∀ σ : Equiv.Perm (Fin 3),
        (Tri2.mk (fun i => t.points (σ i)) t.color).bounding_box = t.bounding_box := by
  refine ⟨rfl, fun σ => ?_⟩
  simp only [Tri2.bounding_box, Prod.mk.injEq, Vec2.mk.injEq]
  exact ⟨⟨min3_perm (fun i => (t.points i).x) σ, min3_perm (fun i => (t.points i).y) σ⟩,
    max3_perm (fun i => (t.points i).x) σ, max3_perm (fun i => (t.points i).y) σ⟩

/-- The saturating cast of a nonnegative integer value is that integer. -/
theorem castUsize_natCast (m : ℕ) : castUsize (m : ℚ) = m := by
  simp [castUsize]

/-- The saturating cast sends every negative value to 0. -/
theorem castUsize_neg (q : ℚ) (h : q < 0) : castUsize q = 0 := by
  unfold castUsize
  have hf : ⌊q⌋ < 0 := Int.floor_lt.mpr (by exact_mod_cast h)
  omega

/-- The saturating cast is monotone. -/
theorem castUsize_mono {p q : ℚ} (h : p ≤ q) : castUsize p ≤ castUsize q :=
  Int.toNat_le_toNat (Int.floor_le_floor h)

/-- A left fold of `min` never exceeds the matching fold of `max`. -/
theorem min3_le_max3 (a b c : ℚ) : min (min a b) c ≤ max (max a b) c := by
  simp only [min_def, max_def]
  split_ifs <;> linarith

/-- The top-left x coordinate of a bounding box is at most the bottom-right. -/
theorem Tri2.bbox_x_le (t : Tri2) : t.bounding_box.1.x ≤ t.bounding_box.2.x :=
  min3_le_max3 _ _ _

/-- The top-left y coordinate of a bounding box is at most the bottom-right. -/
theorem Tri2.bbox_y_le (t : Tri2) : t.bounding_box.1.y ≤ t.bounding_box.2.y :=
  min3_le_max3 _ _ _

/-- A triangle reaching beyond the buffer on the high side: bounding box
(0,0) to (7,7) against a 4×4 buffer. -/
def beyondTri : Tri2 := ⟨![⟨0, 0⟩, ⟨7, 0⟩, ⟨0, 7⟩], ⟨0, 0, 0⟩⟩

/-- A triangle entirely at negative coordinates. -/
def negTri : Tri2 := ⟨![⟨-5, -5⟩, ⟨-2, -2⟩, ⟨-5, -2⟩], ⟨0, 0, 0⟩⟩

theorem beyondTri_bbox : beyondTri.bounding_box = (⟨0, 0⟩, ⟨7, 7⟩) := by
  simp only [Tri2.bounding_box, beyondTri, vec3App0, vec3App1, vec3App2,
    Prod.mk.injEq, Vec2.mk.injEq]
  norm_num

theorem negTri_bbox : negTri.bounding_box = (⟨-5, -5⟩, ⟨-2, -2⟩) := by
  simp only [Tri2.bounding_box, negTri, vec3App0, vec3App1, vec3App2,
    Prod.mk.injEq, Vec2.mk.injEq]
  norm_num

theorem castUsize_seven : castUsize (7 : ℚ) = 7 := by
  unfold castUsize
  norm_num
  rfl

theorem castUsize_zero : castUsize (0 : ℚ) = 0 := by
  unfold castUsize
  norm_num

/-- C1 (counterexample): rendering the triangle (0,0),(7,0),(0,7) into a 4×4
buffer faults: the truncated bottom-right x index 7 exceeds the buffer side
4, so the outer slice panics instead of being clamped. -/
theorem c1_counterexample : Scene.render 4 [beyondTri] blackBuf = none := by
  simp only [Scene.render, List.foldl_cons, List.foldl_nil, Option.some_bind,
    Scene.paintTriangle, beyondTri_bbox]
  norm_num [castUsize_seven, castUsize_zero]

/-- C1 (amended): the saturating float-to-usize casts clamp negative
bounding-box coordinates to index 0, and when both truncated bottom-right
indices stay within the buffer side n the render of that one triangle never
faults; a triangle whose bounding box ends at negative x or negative y
paints no pixel.  (When a truncated bottom-right index exceeds n the slice
faults instead of clamping, as the counterexample shows.) -/
theorem c1_amended (n : ℕ) (t : Tri2) (buf : ℕ → ℕ → Vec3)
    (hx : castUsize t.bounding_box.2.x ≤ n)
    (hy : castUsize t.bounding_box.2.y ≤ n) :
    ∃ b, Scene.render n [t] buf = some b ∧
      ((t.bounding_box.2.x < 0 ∨ t.bounding_box.2.y < 0) → b = buf) := by
  have hxm : castUsize t.bounding_box.1.x ≤ castUsize t.bounding_box.2.x :=
    castUsize_mono t.bbox_x_le
  have hym : castUsize t.bounding_box.1.y ≤ castUsize t.bounding_box.2.y :=
    castUsize_mono t.bbox_y_le
  have hrender : Scene.render n [t] buf = Scene.paintTriangle n buf t := by
    simp [Scene.render]
  rw [hrender]
  unfold Scene.paintTriangle
  rw [if_neg (by omega), if_neg (by omega)]
  refine ⟨_, rfl, fun hor => ?_⟩
  rcases hor with h | h
  · funext i j
    simp [castUsize_neg _ h]
  · funext i j
    simp [castUsize_neg _ h]

/-- C1 witness: the amended theorem applied to the all-negative triangle
(-5,-5),(-2,-2),(-5,-2) on a 4×4 buffer: no fault and nothing painted. -/
theorem c1_amended_witness : Scene.render 4 [negTri] blackBuf = some blackBuf := by
  have hx : castUsize negTri.bounding_box.2.x ≤ 4 := by
    rw [negTri_bbox]
    show castUsize (-2 : ℚ) ≤ 4
    rw [castUsize_neg _ (by norm_num)]
    omega
  have hy : castUsize negTri.bounding_box.2.y ≤ 4 := by
    rw [negTri_bbox]
    show castUsize (-2 : ℚ) ≤ 4
    rw [castUsize_neg _ (by norm_num)]
    omega
  obtain ⟨b, h1, h2⟩ := c1_amended 4 negTri blackBuf hx hy
  have hb : b = blackBuf := h2 (Or.inl (by rw [negTri_bbox]; norm_num))
  rw [hb] at h1
  exact h1

/-- The end-to-end scenario triangle (0,0),(3,0),(0,3), colored red. -/
def redTri : Tri2 := ⟨![⟨0, 0⟩, ⟨3, 0⟩, ⟨0, 3⟩], ⟨1, 0, 0⟩⟩

/-- A red triangle (2,2),(6,2),(2,6) whose bounding box does not start at the
origin. -/
def offTri : Tri2 := ⟨![⟨2, 2⟩, ⟨6, 2⟩, ⟨2, 6⟩], ⟨1, 0, 0⟩⟩

theorem redTri_color : redTri.color = ⟨1, 0, 0⟩ := rfl

theorem offTri_color : offTri.color = ⟨1, 0, 0⟩ := rfl

theorem redTri_bbox : redTri.bounding_box = (⟨0, 0⟩, ⟨3, 3⟩) := by
  simp only [Tri2.bounding_box, redTri, vec3App0, vec3App1, vec3App2,
    Prod.mk.injEq, Vec2.mk.injEq]
  norm_num

theorem offTri_bbox : offTri.bounding_box = (⟨2, 2⟩, ⟨6, 6⟩) := by
  simp only [Tri2.bounding_box, offTri, vec3App0, vec3App1, vec3App2,
    Prod.mk.injEq, Vec2.mk.injEq]
  norm_num

theorem castUsize_two : castUsize (2 : ℚ) = 2 := by
  unfold castUsize
  norm_num
  rfl

theorem castUsize_three : castUsize (3 : ℚ) = 3 := by
  unfold castUsize
  norm_num
  rfl

theorem castUsize_six : castUsize (6 : ℚ) = 6 := by
  unfold castUsize
  norm_num
  rfl

theorem rgbByte_one : rgbByte 1 = 255 := by
  unfold rgbByte
  norm_num

theorem rgbByte_zero : rgbByte 0 = 0 := by
  unfold rgbByte
  norm_num

/-- Sign analysis of the inside test for the scenario triangle
(0,0),(3,0),(0,3). -/
theorem redTri_inside_char (q r : ℚ) :
    redTri.inside ⟨q, r⟩ = true ↔
      ((r ≤ 0 ∧ 3 ≤ q + r ∧ q ≤ 0) ∨ (0 < r ∧ q + r < 3 ∧ 0 < q)) := by
  rw [Tri2.inside_eq_true_iff_signs]
  simp only [redTri, vec3App0, vec3App1, vec3App2, Vec2.edgeDot_eq]
  constructor
  · rintro (⟨h1, h2, h3⟩ | ⟨h1, h2, h3⟩)
    · exact Or.inl ⟨by linarith, by linarith, by linarith⟩
    · exact Or.inr ⟨by linarith, by linarith, by linarith⟩
  · rintro (⟨h1, h2, h3⟩ | ⟨h1, h2, h3⟩)
    · exact Or.inl ⟨by linarith, by linarith, by linarith⟩
    · exact Or.inr ⟨by linarith, by linarith, by linarith⟩

/-- Sign analysis of the inside test for the triangle (2,2),(6,2),(2,6). -/
theorem offTri_inside_char (q r : ℚ) :
    offTri.inside ⟨q, r⟩ = true ↔
      ((r ≤ 2 ∧ 8 ≤ q + r ∧ q ≤ 2) ∨ (2 < r ∧ q + r < 8 ∧ 2 < q)) := by
  rw [Tri2.inside_eq_true_iff_signs]
  simp only [offTri, vec3App0, vec3App1, vec3App2, Vec2.edgeDot_eq]
  constructor
  · rintro (⟨h1, h2, h3⟩ | ⟨h1, h2, h3⟩)
    · exact Or.inl ⟨by linarith, by linarith, by linarith⟩
    · exact Or.inr ⟨by linarith, by linarith, by linarith⟩
  · rintro (⟨h1, h2, h3⟩ | ⟨h1, h2, h3⟩)
    · exact Or.inl ⟨by linarith, by linarith, by linarith⟩
    · exact Or.inr ⟨by linarith, by linarith, by linarith⟩

/-- C3 (counterexample): after rendering the scenario triangle on a 4×4
black buffer, the pixel at coordinate (2,0) (first index 2 as well as second
index 2 under the transposed reading) exports the byte triple (0,0,0), while
the claim, with 2 + 0 ≤ 3, demands (255,0,0). -/
theorem c3_counterexample :
    Option.map (fun b => (Scene.exportPixel b 2 0, Scene.exportPixel b 0 2))
        (Scene.render 4 [redTri] blackBuf) =
      some ((0, 0, 0), (0, 0, 0)) ∧ ((0, 0, 0) : ℕ × ℕ × ℕ) ≠ (255, 0, 0) := by
  have hrender : Scene.render 4 [redTri] blackBuf =
      Scene.paintTriangle 4 blackBuf redTri := by
    simp [Scene.render]
  rw [hrender]
  unfold Scene.paintTriangle
  rw [redTri_bbox]
  simp only [castUsize_zero, castUsize_three]
  rw [if_neg (by norm_num), if_neg (by norm_num)]
  refine ⟨?_, by decide⟩
  norm_num [Scene.exportPixel, redTri_inside_char, redTri_color, blackBuf,
    rgbByte_zero, Vec3.r, Vec3.g, Vec3.b]

/-- C3 (amended): rendering the scenario triangle once on a 4×4 black buffer
turns exactly the single pixel (1,1) into the byte triple (255,0,0) and
leaves every other pixel at (0,0,0): the slice bounds exclude the truncated
bottom-right row and column 3, and every integer point on the triangle
boundary fails the inside test because this winding makes the three edge
tests disagree there, so of the iterated pixels only the interior point
(1,1) passes. -/
theorem c3_amended :
    ∃ b, Scene.render 4 [redTri] blackBuf = some b ∧
      ∀ i j : Fin 4, Scene.exportPixel b i j =
        if (i : ℕ) = 1 ∧ (j : ℕ) = 1 then (255, 0, 0) else (0, 0, 0) := by
  have hrender : Scene.render 4 [redTri] blackBuf =
      Scene.paintTriangle 4 blackBuf redTri := by
    simp [Scene.render]
  rw [hrender]
  unfold Scene.paintTriangle
  rw [redTri_bbox]
  simp only [castUsize_zero, castUsize_three]
  rw [if_neg (by norm_num), if_neg (by norm_num)]
  refine ⟨_, rfl, fun i j => ?_⟩
  fin_cases i <;> fin_cases j <;>
    norm_num [Scene.exportPixel, redTri_inside_char, redTri_color, blackBuf,
      rgbByte_zero, rgbByte_one, Vec3.r, Vec3.g, Vec3.b]

/-- C2 (code evaluation at the failing input): rendering the single triangle
(2,2),(6,2),(2,6) on an 8×8 black buffer, the loop tests bounding-box
relative offsets instead of absolute pixel coordinates: the cell (3,3),
whose absolute coordinate is strictly inside the triangle, stays black,
while the cell (5,5), whose absolute coordinate is outside the triangle, is
painted red because its relative offset (3,3) passes the test. -/
theorem c2_code_eval :
    ∃ b, Scene.render 8 [offTri] blackBuf = some b ∧
      b 3 3 = ⟨0, 0, 0⟩ ∧ b 5 5 = ⟨1, 0, 0⟩ ∧
      offTri.inside ⟨3, 3⟩ = true ∧ offTri.inside ⟨5, 5⟩ = false := by
  have hrender : Scene.render 8 [offTri] blackBuf =
      Scene.paintTriangle 8 blackBuf offTri := by
    simp [Scene.render]
  rw [hrender]
  unfold Scene.paintTriangle
  rw [offTri_bbox]
  simp only [castUsize_two, castUsize_six]
  rw [if_neg (by norm_num), if_neg (by norm_num)]
  refine ⟨_, rfl, ?_, ?_, ?_, ?_⟩
  · norm_num [offTri_inside_char, blackBuf]
  · norm_num [offTri_inside_char, offTri_color]
  · rw [offTri_inside_char]
    norm_num
  · rw [← Bool.not_eq_true, offTri_inside_char]
    norm_num

/-- Length of a flat map whose blocks all have the same length. -/
theorem length_flatMap_const {α β : Type} (l : List α) (f : α → List β) (m : ℕ)
    (h : ∀ a, (f a).length = m) : (l.flatMap f).length = l.length * m := by
  induction l with
  | nil => simp
  | cons a l ih =>
    simp only [List.flatMap_cons, List.length_append, ih, h, List.length_cons]
    ring

/-- Flattening then flat-mapping equals flat-mapping the inner flat map. -/
theorem flatten_flatMap {α β : Type} (m : List (List α)) (h : α → List β) :
    m.flatten.flatMap h = m.flatMap (fun x => x.flatMap h) := by
  induction m with
  | nil => rfl
  | cons a m ih => simp [List.flatMap_append, ih]

/-- Indexing into a flat map with uniform block length. -/
theorem getElem?_flatMap_const {α β : Type} (l : List α) (f : α → List β) (m i j : ℕ)
    (h : ∀ a, (f a).length = m) (hj : j < m) :
    (l.flatMap f)[i * m + j]? = l[i]?.bind (fun a => (f a)[j]?) := by
  induction l generalizing i with
  | nil => simp
  | cons a l ih =>
    cases i with
    | zero =>
      simp only [List.flatMap_cons, Nat.zero_mul, Nat.zero_add]
      rw [List.getElem?_append_left (by rw [h a]; exact hj)]
      simp
    | succ i =>
      have hm : m ≤ (i + 1) * m + j :=
        le_trans (le_trans (Nat.le_add_left m (i * m)) (le_of_eq (by ring)))
          (Nat.le_add_right _ _)
      have hidx : (i + 1) * m + j - m = i * m + j := by
        rw [add_one_mul]
        generalize i * m = K
        omega
      simp only [List.flatMap_cons]
      rw [List.getElem?_append_right (by rw [h a]; exact hm), h a, hidx, ih]
      simp

/-- The export stream in fully unfolded row-major form. -/
theorem exportBytes_eq (n : ℕ) (buf : ℕ → ℕ → Vec3) :
    exportBytes n buf = (List.range n).flatMap (fun i => (List.range n).flatMap
      (fun j => [rgbByte (buf i j).r, rgbByte (buf i j).g, rgbByte (buf i j).b])) := by
  unfold exportBytes bufferRows
  simp only [flatten_flatMap, List.flatMap_map]

/-- The spec precondition on one pixel: every channel lies in [0, 1). -/
def chanOK (v : Vec3) : Prop :=
  (0 ≤ v.x ∧ v.x < 1) ∧ (0 ≤ v.y ∧ v.y < 1) ∧ (0 ≤ v.z ∧ v.z < 1)

/-- Under the channel precondition the saturating byte is exactly the floor
of channel × 256 and lies in [0, 255]. -/
theorem rgbByte_of_mem_Ico (c : ℚ) (h0 : 0 ≤ c) (h1 : c < 1) :
    rgbByte c = (⌊c * 256⌋).toNat ∧ (⌊c * 256⌋).toNat ≤ 255 := by
  have hl : (0 : ℤ) ≤ ⌊c * 256⌋ := Int.le_floor.mpr (by push_cast; nlinarith)
  have hu : ⌊c * 256⌋ < 256 := by
    rw [Int.floor_lt]
    push_cast
    nlinarith
  unfold rgbByte
  omega

/-- C8: under the precondition that all channels lie in [0,1), the export
stream has exactly 3·n·n bytes in row-major order, three bytes per pixel at
flat offset 3·(i·n + j), each equal to floor(channel × 256) and at most 255. -/
theorem c8_export (n : ℕ) (buf : ℕ → ℕ → Vec3)
    (h : ∀ i j, i < n → j < n → chanOK (buf i j)) :
    (exportBytes n buf).length = 3 * n * n ∧
      ∀ i j, i < n → j < n →
        ((exportBytes n buf)[3 * (i * n + j)]? = some ((⌊(buf i j).r * 256⌋).toNat) ∧
          (exportBytes n buf)[3 * (i * n + j) + 1]? = some ((⌊(buf i j).g * 256⌋).toNat) ∧
          (exportBytes n buf)[3 * (i * n + j) + 2]? = some ((⌊(buf i j).b * 256⌋).toNat)) ∧
        ((⌊(buf i j).r * 256⌋).toNat ≤ 255 ∧ (⌊(buf i j).g * 256⌋).toNat ≤ 255 ∧
          (⌊(buf i j).b * 256⌋).toNat ≤ 255) := by
  have hinner : ∀ i, ((List.range n).flatMap
      (fun j => [rgbByte (buf i j).r, rgbByte (buf i j).g, rgbByte (buf i j).b])).length =
        n * 3 := by
    intro i
    rw [length_flatMap_const (List.range n)
      (fun j => [rgbByte (buf i j).r, rgbByte (buf i j).g, rgbByte (buf i j).b]) 3
      (fun _ => rfl), List.length_range]
  constructor
  · rw [exportBytes_eq, length_flatMap_const _ _ (n * 3) hinner, List.length_range]
    ring
  · intro i j hi hj
    obtain ⟨⟨hr0, hr1⟩, ⟨hg0, hg1⟩, ⟨hb0, hb1⟩⟩ := h i j hi hj
    have Hr := rgbByte_of_mem_Ico _ hr0 hr1
    have Hg := rgbByte_of_mem_Ico _ hg0 hg1
    have Hb := rgbByte_of_mem_Ico _ hb0 hb1
    have key : ∀ k : ℕ, k < 3 →
        (exportBytes n buf)[3 * (i * n + j) + k]? =
          [rgbByte (buf i j).r, rgbByte (buf i j).g, rgbByte (buf i j).b][k]? := by
      intro k hk
      have hpos : 3 * (i * n + j) + k = i * (n * 3) + (j * 3 + k) := by ring
      have hjk : j * 3 + k < n * 3 :=
        lt_of_lt_of_le (by omega : j * 3 + k < (j + 1) * 3) (Nat.mul_le_mul_right 3 hj)
      rw [exportBytes_eq, hpos,
        getElem?_flatMap_const _ _ (n * 3) i (j * 3 + k) hinner hjk,
        List.getElem?_range hi, Option.some_bind,
        getElem?_flatMap_const (List.range n)
          (fun j => [rgbByte (buf i j).r, rgbByte (buf i j).g, rgbByte (buf i j).b]) 3 j k
          (fun _ => rfl) hk,
        List.getElem?_range hj, Option.some_bind]
    refine ⟨⟨?_, ?_, ?_⟩, Hr.2, Hg.2, Hb.2⟩
    · have h0 := key 0 (by omega)
      simp only [Nat.add_zero] at h0
      rw [h0]
      simp [Vec3.r, Hr.1]
    · have h1 := key 1 (by omega)
      rw [h1]
      simp [Vec3.g, Hg.1]
    · have h2 := key 2 (by omega)
      rw [h2]
      simp [Vec3.b, Hb.1]

/-- A constant test buffer with channels (1/2, 0, 3/4). -/
def grayBuf : ℕ → ℕ → Vec3 := fun _ _ => ⟨1/2, 0, 3/4⟩

/-- C8 witness: the export theorem applied to a 1×1 buffer holding the pixel
(1/2, 0, 3/4): 3 bytes, the first being floor(1/2 × 256) = 128. -/
theorem c8_export_witness :
    (exportBytes 1 grayBuf).length = 3 * 1 * 1 ∧
      (exportBytes 1 grayBuf)[0]? = some 128 := by
  have H := c8_export 1 grayBuf (fun i j _ _ => by
    unfold chanOK grayBuf
    norm_num)
  refine ⟨H.1, ?_⟩
  have h2 := ((H.2 0 0 Nat.one_pos Nat.one_pos).1).1
  norm_num [grayBuf, Vec3.r] at h2
  exact h2
